import Mathlib

/-!
Verification development for the SpinesGUI persistent job queue subsystem
(`queue_db.py`, `worker.py`, `queue_monitor.py`).

The SQLite-backed `QueueDB` is embedded as a pure state-passing model:
the `jobs` table is a list of `JobRow` records plus the AUTOINCREMENT
counter, every SQL statement becomes a pure function on `DBState`, and
`datetime('now')` becomes an explicit `now : Nat` argument.  The worker
loop body and the monitor's log tailing and log-path selection are also
embedded as pure functions.
-/

namespace SpinesQueue

/-- One row of the `jobs` table (schema from `QueueDB._init_db`).
`force` is the stored INTEGER column (0/1); timestamps are modelled
as naturals; nullable columns are `Option`. -/
structure JobRow where
  id : Nat
  exp_id : String
  root_folder : String
  mode : String
  force : Nat
  status : String
  created_at : Nat
  started_at : Option Nat
  finished_at : Option Nat
  log_path : Option String
  error : Option String
deriving DecidableEq, Repr

/-- The Python `Job` dataclass: same fields, but `force` is a `bool`. -/
structure Job where
  id : Nat
  exp_id : String
  root_folder : String
  mode : String
  force : Bool
  status : String
  created_at : Nat
  started_at : Option Nat
  finished_at : Option Nat
  log_path : Option String
  error : Option String
deriving DecidableEq, Repr

/-- `QueueDB._convert_row`: the tuple is converted to a `Job`, turning the
stored integer `force` into a bool via Python `bool(row[4])` (≠ 0). -/
def convert_row (r : JobRow) : Job :=
  { id := r.id, exp_id := r.exp_id, root_folder := r.root_folder,
    mode := r.mode, force := decide (r.force ≠ 0), status := r.status,
    created_at := r.created_at, started_at := r.started_at,
    finished_at := r.finished_at, log_path := r.log_path, error := r.error }

/-- The persistent store: the `jobs` table rows (in insertion order) and
the next AUTOINCREMENT id value. -/
structure DBState where
  jobs : List JobRow
  next_id : Nat
deriving DecidableEq, Repr

/-- A freshly initialised store (`CREATE TABLE IF NOT EXISTS`, no rows,
AUTOINCREMENT starting at 1). -/
def initDB : DBState := { jobs := [], next_id := 1 }

/-- `UPDATE jobs SET ... WHERE id=?`: apply `f` to every row whose id
matches (ids are unique in reachable states, so at most one row). -/
def updateWhere (jobs : List JobRow) (jid : Nat) (f : JobRow → JobRow) : List JobRow :=
  jobs.map fun r => if r.id = jid then f r else r

/-- `SELECT ... WHERE id=?` (first matching row). -/
def getRow (db : DBState) (jid : Nat) : Option JobRow :=
  db.jobs.find? fun r => decide (r.id = jid)

/-- `QueueDB.enqueue_job`: INSERT a new row with status `'queued'`,
`force` stored as `1 if force else 0`, `created_at = now`; returns the
new state and the assigned rowid. -/
def enqueue_job (db : DBState) (exp_id root_folder mode : String)
    (force : Bool) (now : Nat) : DBState × Nat :=
  let row : JobRow :=
    { id := db.next_id, exp_id := exp_id, root_folder := root_folder,
      mode := mode, force := if force then 1 else 0, status := "queued",
      created_at := now, started_at := none, finished_at := none,
      log_path := none, error := none }
  ({ jobs := db.jobs ++ [row], next_id := db.next_id + 1 }, db.next_id)

/-- `QueueDB.cancel_job`: `UPDATE jobs SET status='canceled',
finished_at=now WHERE id=? AND status='queued'`. -/
def cancel_job (db : DBState) (jid : Nat) (now : Nat) : DBState :=
  { jobs := updateWhere db.jobs jid fun r =>
      if r.status = "queued" then
        { r with status := "canceled", finished_at := some now }
      else r,
    next_id := db.next_id }

/-- `SELECT ... WHERE status='queued' ORDER BY id ASC LIMIT 1`: the
queued row with the smallest id, if any. -/
def selectMinQueued : List JobRow → Option JobRow
  | [] => none
  | r :: rest =>
    let best := selectMinQueued rest
    if r.status = "queued" then
      match best with
      | none => some r
      | some m => if m.id < r.id then some m else some r
    else best

/-- `QueueDB.claim_next_job`: inside one `BEGIN IMMEDIATE` transaction,
select the smallest-id queued row; if none, return the state unchanged
and `none`; otherwise set that row's status to `'running'` and
`started_at = now`, and return the converted pre-claim row. -/
def claim_next_job (db : DBState) (now : Nat) : DBState × Option Job :=
  match selectMinQueued db.jobs with
  | none => (db, none)
  | some r =>
    ({ jobs := updateWhere db.jobs r.id fun x =>
         { x with status := "running", started_at := some now },
       next_id := db.next_id },
     some (convert_row r))

/-- `QueueDB.set_log_path`: `UPDATE jobs SET log_path=? WHERE id=?`
(unconditional, keyed only by id). -/
def set_log_path (db : DBState) (jid : Nat) (path : String) : DBState :=
  { jobs := updateWhere db.jobs jid fun r => { r with log_path := some path },
    next_id := db.next_id }

/-- `QueueDB.mark_done`: `UPDATE jobs SET status='done',
finished_at=now, error=NULL WHERE id=?` (unconditional). -/
def mark_done (db : DBState) (jid : Nat) (now : Nat) : DBState :=
  { jobs := updateWhere db.jobs jid fun r =>
      { r with status := "done", finished_at := some now, error := none },
    next_id := db.next_id }

/-- `QueueDB.mark_failed`: `UPDATE jobs SET status='failed',
finished_at=now, error=? WHERE id=?` (unconditional). -/
def mark_failed (db : DBState) (jid : Nat) (error_text : String) (now : Nat) : DBState :=
  { jobs := updateWhere db.jobs jid fun r =>
      { r with status := "failed", finished_at := some now, error := some error_text },
    next_id := db.next_id }

/-- Insertion step for `ORDER BY id ASC`. -/
def insertByIdAsc (r : JobRow) : List JobRow → List JobRow
  | [] => [r]
  | x :: xs => if r.id ≤ x.id then r :: x :: xs else x :: insertByIdAsc r xs

/-- Sort rows by ascending id (`ORDER BY id ASC`). -/
def sortByIdAsc : List JobRow → List JobRow
  | [] => []
  | r :: rest => insertByIdAsc r (sortByIdAsc rest)

/-- `QueueDB.get_queued`: queued rows, ordered by id ascending, at most
`limit`, converted. -/
def get_queued (db : DBState) (limit : Nat) : List Job :=
  (((sortByIdAsc (db.jobs.filter fun r => decide (r.status = "queued")))).take limit).map
    convert_row

/-- Comparison used for `ORDER BY started_at DESC` / `finished_at DESC`:
SQL NULLs sort before every value, so `none` is smallest. -/
def optNatLt (a b : Option Nat) : Bool :=
  match a, b with
  | none, some _ => true
  | some x, some y => decide (x < y)
  | _, _ => false

/-- `SELECT ... WHERE status='running' ORDER BY started_at DESC LIMIT 1`:
a running row with maximal `started_at`, if any. -/
def selectMaxRunning : List JobRow → Option JobRow
  | [] => none
  | r :: rest =>
    let best := selectMaxRunning rest
    if r.status = "running" then
      match best with
      | none => some r
      | some m => if optNatLt r.started_at m.started_at then some m else some r
    else best

/-- `QueueDB.get_running`: the running row (if any), converted. -/
def get_running (db : DBState) : Option Job :=
  (selectMaxRunning db.jobs).map convert_row

/-- Terminal-status test: `status IN ('done','failed','canceled')`. -/
def isFinished (r : JobRow) : Bool :=
  r.status = "done" || r.status = "failed" || r.status = "canceled"

/-- Insertion step for `ORDER BY finished_at DESC`. -/
def insertByFinDesc (r : JobRow) : List JobRow → List JobRow
  | [] => [r]
  | x :: xs =>
    if optNatLt x.finished_at r.finished_at then r :: x :: xs
    else x :: insertByFinDesc r xs

/-- Sort rows by descending `finished_at`. -/
def sortByFinDesc : List JobRow → List JobRow
  | [] => []
  | r :: rest => insertByFinDesc r (sortByFinDesc rest)

/-- `QueueDB.get_last_finished`: terminal rows ordered by `finished_at`
descending, at most `n`, converted. -/
def get_last_finished (db : DBState) (n : Nat) : List Job :=
  ((sortByFinDesc (db.jobs.filter isFinished)).take n).map convert_row

/-- Number of rows with status `'running'`. -/
def countRunning (db : DBState) : Nat :=
  (db.jobs.filter fun r => decide (r.status = "running")).length

/-! ## Monitor (`queue_monitor.py`) -/

/-- `tail_text`: returns `""` when the path is missing; otherwise seeks
to `max(0, size - max_bytes)` from the start and reads to the end, i.e.
returns the last `min(size, max_bytes)` bytes.  The file content is
modelled as a byte list; `Nat` truncated subtraction is exactly the
`max(0, size - max_bytes)` of the source.  No offset is remembered
between calls. -/
def tail_text (file : Option (List Char)) (max_bytes : Nat) : List Char :=
  match file with
  | none => []
  | some data => data.drop (data.length - max_bytes)

/-- `QueueMonitorDialog.refresh`, log-source choice: prefer the running
job's `log_path` when it is truthy (non-None and non-empty), else fall
back to the worker stdout log. -/
def chooseLogPath (running : Option Job) (workerStdout : String) : String :=
  match running with
  | some j =>
    match j.log_path with
    | some p => if p = "" then workerStdout else p
    | none => workerStdout
  | none => workerStdout

/-! ## Worker (`worker.py`) -/

/-- `safe_exp` character sanitisation: keep alphanumerics and `-_.`,
replace everything else by `_`. -/
def safeChar (c : Char) : Char :=
  if c.isAlphanum || c = '-' || c = '_' || c = '.' then c else '_'

/-- `"".join(c if c.isalnum() or c in "-_." else "_" for c in exp_id)`. -/
def safe_exp (s : String) : String :=
  String.mk (s.data.map safeChar)

/-- Zero-padded `f"{job_id:06d}"`. -/
def pad6 (n : Nat) : String :=
  let s := toString n
  String.mk (List.replicate (6 - s.length) '0') ++ s

/-- The per-job log file path `logs_dir/job_{id:06d}_{safe_exp}.log`. -/
def jobLogPath (logsDir : String) (jid : Nat) (exp_id : String) : String :=
  logsDir ++ "/job_" ++ pad6 jid ++ "_" ++ safe_exp exp_id ++ ".log"

/-- `traceback.format_exc()` for an exception `excType(msg)`: header
line, the stack frames, then `ExcType: msg`.  The frame text and the
exception type name are parameters of the model. -/
def format_exc (frames excType msg : String) : String :=
  "Traceback (most recent call last):\n" ++ frames ++ excType ++ ": " ++ msg ++ "\n"

/-- Transient store errors that `sqlite3` can raise out of
`claim_next_job` (which rolls back and re-raises). -/
inductive StoreErr where
  | locked
  | unreachable
deriving DecidableEq, Repr

/-- What one pass of the worker's `while True:` body does. -/
inductive IterOutcome where
  /-- an exception escaped the loop body: `main` has no handler around
  `claim_next_job`, so the process dies -/
  | crashed (e : StoreErr)
  /-- `claim_next_job` returned `None`: `time.sleep(poll)` then retry -/
  | slept
  /-- a job was claimed, executed and marked `done`/`failed`; the loop
  continues with the next iteration -/
  | finished (jid : Nat)
deriving DecidableEq, Repr

/-- One iteration of `worker.main`'s loop (`worker.py` lines 39-77).
`claimErr` injects a transient store error raised by `claim_next_job`
(whose own handler rolls back and re-raises); `bodyErr = some (frames,
excType, msg)` makes the job body raise, `none` makes it return
normally.  Exactly mirroring the source: only the job body is guarded
by `try/except`; an error from `claim_next_job` propagates. -/
def worker_iteration (db : DBState) (claimErr : Option StoreErr)
    (bodyErr : Option (String × String × String)) (logsDir : String)
    (tClaim tFinish : Nat) : DBState × IterOutcome :=
  match claimErr with
  | some e => (db, .crashed e)
  | none =>
    match claim_next_job db tClaim with
    | (db1, none) => (db1, .slept)
    | (db1, some job) =>
      let lp := jobLogPath logsDir job.id job.exp_id
      let db2 := set_log_path db1 job.id lp
      match bodyErr with
      | none => (mark_done db2 job.id tFinish, .finished job.id)
      | some (frames, excType, msg) =>
        (mark_failed db2 job.id (format_exc frames excType msg) tFinish,
         .finished job.id)

/-! ## The single-worker protocol

One Worker process alternates `claim_next_job` with `set_log_path` calls
and exactly one `mark_done`/`mark_failed` on the job it claimed, while
any number of Producer/Monitor processes interleave `enqueue_job` and
`cancel_job` steps.  `SysState.worker` records the id of the job the
Worker currently holds.  A step the protocol does not allow (claiming
while holding a job, marking while holding none) is modelled as a
no-op, which yields the same set of reachable states. -/

/-- Store operations issued under the single-worker protocol. -/
inductive Action where
  | enqueue (exp_id root_folder mode : String) (force : Bool)
  | cancel (jid : Nat)
  | claim
  | setLog (path : String)
  | markDone
  | markFailed (err : String)
deriving DecidableEq, Repr

/-- The store plus the Worker's program counter (the job it holds). -/
structure SysState where
  db : DBState
  worker : Option Nat
deriving DecidableEq, Repr

/-- Effect of one protocol step taken at time `t`. -/
def applyAction (a : Action) (t : Nat) (s : SysState) : SysState :=
  match a with
  | .enqueue e rf m f => { db := (enqueue_job s.db e rf m f t).1, worker := s.worker }
  | .cancel jid => { db := cancel_job s.db jid t, worker := s.worker }
  | .claim =>
    match s.worker with
    | none =>
      let p := claim_next_job s.db t
      { db := p.1, worker := p.2.map fun j => j.id }
    | some _ => s
  | .setLog path =>
    match s.worker with
    | some j => { db := set_log_path s.db j path, worker := some j }
    | none => s
  | .markDone =>
    match s.worker with
    | some j => { db := mark_done s.db j t, worker := none }
    | none => s
  | .markFailed err =>
    match s.worker with
    | some j => { db := mark_failed s.db j err t, worker := none }
    | none => s

/-- Initial system state: empty store, Worker holding nothing. -/
def initState : SysState := { db := initDB, worker := none }

/-- Run a timed trace of protocol steps from `s`. -/
def runFrom (s : SysState) : List (Nat × Action) → SysState
  | [] => s
  | (t, a) :: rest => runFrom (applyAction a t s) rest

/-- Run a timed trace from the initial state. -/
def run (tr : List (Nat × Action)) : SysState :=
  runFrom initState tr

/-- The trace's timestamps are nondecreasing and start no earlier
than `t0` (the wall clock never runs backwards). -/
def timesND : Nat → List (Nat × Action) → Bool
  | _, [] => true
  | t0, (t, _) :: rest => decide (t0 ≤ t) && timesND t rest

/-! ## Helper lemmas -/

theorem convert_row_id (r : JobRow) : (convert_row r).id = r.id := rfl

theorem convert_row_status (r : JobRow) : (convert_row r).status = r.status := rfl

theorem convert_row_started (r : JobRow) : (convert_row r).started_at = r.started_at := rfl

theorem convert_row_force (r : JobRow) : (convert_row r).force = decide (r.force ≠ 0) := rfl

theorem mem_updateWhere_dest {jobs : List JobRow} {jid : Nat} {f : JobRow → JobRow}
    {x : JobRow} (hx : x ∈ updateWhere jobs jid f) :
    ∃ r, r ∈ jobs ∧ ((r.id = jid ∧ x = f r) ∨ (¬ r.id = jid ∧ x = r)) := by
  rcases List.mem_map.mp hx with ⟨r, hr, hxe⟩
  refine ⟨r, hr, ?_⟩
  by_cases h : r.id = jid
  · exact Or.inl ⟨h, by simpa [h] using hxe.symm⟩
  · exact Or.inr ⟨h, by simpa [h] using hxe.symm⟩

theorem mem_updateWhere_of_ne {jobs : List JobRow} {jid : Nat} {f : JobRow → JobRow}
    {r : JobRow} (hr : r ∈ jobs) (h : ¬ r.id = jid) :
    r ∈ updateWhere jobs jid f := by
  have hm : (if r.id = jid then f r else r) ∈ updateWhere jobs jid f :=
    List.mem_map_of_mem _ hr
  simpa [h] using hm

theorem updateWhere_map_id {jobs : List JobRow} {jid : Nat} {f : JobRow → JobRow}
    (hf : ∀ r, (f r).id = r.id) :
    (updateWhere jobs jid f).map (fun r => r.id) = jobs.map (fun r => r.id) := by
  unfold updateWhere
  rw [List.map_map]
  apply List.map_congr_left
  intro r _
  by_cases h : r.id = jid <;> simp [Function.comp, h, hf]

theorem find_id_updateWhere (jobs : List JobRow) (jid : Nat) (f : JobRow → JobRow)
    (hf : ∀ r, (f r).id = r.id) :
    (updateWhere jobs jid f).find? (fun r => decide (r.id = jid))
      = (jobs.find? (fun r => decide (r.id = jid))).map f := by
  induction jobs with
  | nil => simp [updateWhere]
  | cons r rest ih =>
    by_cases h : r.id = jid
    · rw [show updateWhere (r :: rest) jid f = f r :: updateWhere rest jid f from by
        simp [updateWhere, h]]
      rw [List.find?_cons_of_pos _ (by simp [hf, h]),
          List.find?_cons_of_pos _ (by simp [h])]
      rfl
    · rw [show updateWhere (r :: rest) jid f = r :: updateWhere rest jid f from by
        simp [updateWhere, h]]
      rw [List.find?_cons_of_neg _ (by simp [h]),
          List.find?_cons_of_neg _ (by simp [h])]
      exact ih

theorem find_id_of_nodup {jobs : List JobRow} (hnd : (jobs.map (fun r => r.id)).Nodup)
    {r : JobRow} (hr : r ∈ jobs) :
    jobs.find? (fun x => decide (x.id = r.id)) = some r := by
  induction jobs with
  | nil => cases hr
  | cons a rest ih =>
    rcases List.mem_cons.mp hr with h | h
    · subst h
      rw [List.find?_cons_of_pos _ (by simp)]
    · have hnd' := List.nodup_cons.mp hnd
      have hne : ¬ a.id = r.id := by
        intro he
        apply hnd'.1
        show a.id ∈ List.map (fun r => r.id) rest
        rw [he]
        exact List.mem_map_of_mem (fun r => r.id) h
      rw [List.find?_cons_of_neg _ (by simp [hne])]
      exact ih hnd'.2 h

theorem eq_of_id_eq_of_nodup {jobs : List JobRow}
    (hnd : (jobs.map (fun r => r.id)).Nodup)
    {a b : JobRow} (ha : a ∈ jobs) (hb : b ∈ jobs) (h : a.id = b.id) : a = b := by
  have h1 := find_id_of_nodup hnd ha
  have h2 := find_id_of_nodup hnd hb
  rw [h] at h1
  exact Option.some_inj.mp (h1.symm.trans h2)

theorem nodup_append_singleton {l : List Nat} {a : Nat}
    (h : l.Nodup) (ha : a ∉ l) : (l ++ [a]).Nodup := by
  rw [List.nodup_append]
  refine ⟨h, List.nodup_singleton a, ?_⟩
  intro x hx hxa
  rcases List.mem_singleton.mp hxa with rfl
  exact ha hx

theorem selectMinQueued_mem {l : List JobRow} {m : JobRow}
    (h : selectMinQueued l = some m) : m ∈ l := by
  induction l generalizing m with
  | nil => simp [selectMinQueued] at h
  | cons r rest ih =>
    by_cases hq : r.status = "queued"
    · cases hb : selectMinQueued rest with
      | none =>
        simp [selectMinQueued, hq, hb] at h
        simp [h]
      | some m0 =>
        by_cases hlt : m0.id < r.id
        · simp [selectMinQueued, hq, hb, hlt] at h
          exact List.mem_cons_of_mem r (h ▸ ih hb)
        · simp [selectMinQueued, hq, hb, hlt] at h
          simp [h]
    · simp [selectMinQueued, hq] at h
      exact List.mem_cons_of_mem r (ih h)

theorem selectMinQueued_queued {l : List JobRow} {m : JobRow}
    (h : selectMinQueued l = some m) : m.status = "queued" := by
  induction l generalizing m with
  | nil => simp [selectMinQueued] at h
  | cons r rest ih =>
    by_cases hq : r.status = "queued"
    · cases hb : selectMinQueued rest with
      | none =>
        simp [selectMinQueued, hq, hb] at h
        exact h ▸ hq
      | some m0 =>
        by_cases hlt : m0.id < r.id
        · simp [selectMinQueued, hq, hb, hlt] at h
          exact h ▸ ih hb
        · simp [selectMinQueued, hq, hb, hlt] at h
          exact h ▸ hq
    · simp [selectMinQueued, hq] at h
      exact ih h

theorem selectMinQueued_eq_none {l : List JobRow} :
    selectMinQueued l = none ↔ ∀ r ∈ l, ¬ r.status = "queued" := by
  induction l with
  | nil => simp [selectMinQueued]
  | cons r rest ih =>
    by_cases hq : r.status = "queued"
    · cases hb : selectMinQueued rest with
      | none => simp [selectMinQueued, hq, hb]
      | some m0 =>
        simp only [selectMinQueued, hq, hb, if_true]
        constructor
        · intro h
          exact absurd h (by split <;> simp)
        · intro h
          exact absurd hq (h r (List.mem_cons_self r rest))
    · cases hb : selectMinQueued rest with
      | none =>
        simp [selectMinQueued, hq, hb]
        exact (ih.mp hb)
      | some m0 =>
        simp only [selectMinQueued, hq, if_false, hb]
        constructor
        · intro h
          cases h
        · intro h
          exact absurd (selectMinQueued_queued hb)
            (h m0 (List.mem_cons_of_mem r (selectMinQueued_mem hb)))

theorem selectMinQueued_min {l : List JobRow} {m : JobRow}
    (h : selectMinQueued l = some m) :
    ∀ r ∈ l, r.status = "queued" → m.id ≤ r.id := by
  induction l generalizing m with
  | nil => simp [selectMinQueued] at h
  | cons r rest ih =>
    intro x hx hxq
    rcases List.mem_cons.mp hx with rfl | hx
    · by_cases hq : x.status = "queued"
      · cases hb : selectMinQueued rest with
        | none =>
          simp [selectMinQueued, hq, hb] at h
          simp [h]
        | some m0 =>
          by_cases hlt : m0.id < x.id
          · simp [selectMinQueued, hq, hb, hlt] at h
            exact h ▸ Nat.le_of_lt hlt
          · simp [selectMinQueued, hq, hb, hlt] at h
            simp [h]
      · exact absurd hxq hq
    · by_cases hq : r.status = "queued"
      · cases hb : selectMinQueued rest with
        | none =>
          exact absurd hxq ((selectMinQueued_eq_none.mp hb) x hx)
        | some m0 =>
          by_cases hlt : m0.id < r.id
          · simp [selectMinQueued, hq, hb, hlt] at h
            exact h ▸ ih hb x hx hxq
          · simp [selectMinQueued, hq, hb, hlt] at h
            calc m.id = r.id := by rw [h]
              _ ≤ m0.id := Nat.le_of_not_lt hlt
              _ ≤ x.id := ih hb x hx hxq
      · simp [selectMinQueued, hq] at h
        exact ih h x hx hxq

theorem claim_next_job_of_sel_none {db : DBState} (now : Nat)
    (h : selectMinQueued db.jobs = none) : claim_next_job db now = (db, none) := by
  simp [claim_next_job, h]

theorem claim_next_job_of_sel_some {db : DBState} (now : Nat) {m : JobRow}
    (h : selectMinQueued db.jobs = some m) :
    claim_next_job db now =
      ({ jobs := updateWhere db.jobs m.id fun x =>
           { x with status := "running", started_at := some now },
         next_id := db.next_id }, some (convert_row m)) := by
  simp [claim_next_job, h]

/-! ## Invariants of the single-worker protocol -/

/-- Untimed inductive invariant: ids are fresh and unique, every
running row is the one the Worker holds, and queued rows have no
`started_at` yet. -/
structure InvA (s : SysState) : Prop where
  idsBound : ∀ r ∈ s.db.jobs, r.id < s.db.next_id
  idsNodup : (s.db.jobs.map (fun r => r.id)).Nodup
  runWorker : ∀ r ∈ s.db.jobs, r.status = "running" → s.worker = some r.id
  queuedUnstarted : ∀ r ∈ s.db.jobs, r.status = "queued" → r.started_at = none

theorem InvA_applyAction (a : Action) (t : Nat) {s : SysState} (h : InvA s) :
    InvA (applyAction a t s) := by
  obtain ⟨db, w⟩ := s
  cases a with
  | enqueue e rf m fc =>
    refine ⟨?_, ?_, ?_, ?_⟩
    · intro r hr
      simp only [applyAction, enqueue_job] at hr ⊢
      rcases List.mem_append.mp hr with h1 | h1
      · exact Nat.lt_succ_of_lt (h.idsBound r h1)
      · rcases List.mem_singleton.mp h1 with rfl
        exact Nat.lt_succ_self _
    · simp only [applyAction, enqueue_job, List.map_append]
      apply nodup_append_singleton h.idsNodup
      intro hN
      rcases List.mem_map.mp hN with ⟨r, hr, hid⟩
      have hid' : r.id = db.next_id := hid
      have hlt := h.idsBound r hr
      rw [hid'] at hlt
      exact Nat.lt_irrefl _ hlt
    · intro r hr hrun
      simp only [applyAction, enqueue_job] at hr ⊢
      rcases List.mem_append.mp hr with h1 | h1
      · exact h.runWorker r h1 hrun
      · rcases List.mem_singleton.mp h1 with rfl
        simp at hrun
    · intro r hr _
      simp only [applyAction, enqueue_job] at hr
      rcases List.mem_append.mp hr with h1 | h1
      · exact h.queuedUnstarted r h1 (by assumption)
      · rcases List.mem_singleton.mp h1 with rfl
        rfl
  | cancel jid =>
    refine ⟨?_, ?_, ?_, ?_⟩
    · intro r hr
      simp only [applyAction, cancel_job] at hr ⊢
      rcases mem_updateWhere_dest hr with ⟨r0, hr0, hcase⟩
      have hid : r.id = r0.id := by
        rcases hcase with ⟨_, rfl⟩ | ⟨_, rfl⟩
        · by_cases hq : r0.status = "queued" <;> simp [hq]
        · rfl
      rw [hid]
      exact h.idsBound r0 hr0
    · simp only [applyAction, cancel_job]
      rw [updateWhere_map_id (by intro r; by_cases hq : r.status = "queued" <;> simp [hq])]
      exact h.idsNodup
    · intro r hr hrun
      simp only [applyAction, cancel_job] at hr ⊢
      rcases mem_updateWhere_dest hr with ⟨r0, hr0, hcase⟩
      rcases hcase with ⟨_, rfl⟩ | ⟨_, rfl⟩
      · by_cases hq : r0.status = "queued"
        · simp [hq] at hrun
        · simp only [hq, if_false] at hrun ⊢
          exact h.runWorker r0 hr0 hrun
      · exact h.runWorker r hr0 hrun
    · intro r hr hq2
      simp only [applyAction, cancel_job] at hr
      rcases mem_updateWhere_dest hr with ⟨r0, hr0, hcase⟩
      rcases hcase with ⟨_, rfl⟩ | ⟨_, rfl⟩
      · by_cases hq : r0.status = "queued"
        · simp [hq] at hq2
        · simp only [hq, if_false] at hq2
      · exact h.queuedUnstarted r hr0 hq2
  | claim =>
    cases w with
    | some j =>
      exact h
    | none =>
      cases hsel : selectMinQueued db.jobs with
      | none =>
        have heq : applyAction .claim t ⟨db, none⟩ = ⟨db, none⟩ := by
          simp [applyAction, claim_next_job, hsel]
        rw [heq]
        exact h
      | some m =>
        have heq : applyAction .claim t ⟨db, none⟩ =
            ⟨{ jobs := updateWhere db.jobs m.id fun x =>
                 { x with status := "running", started_at := some t },
               next_id := db.next_id }, some m.id⟩ := by
          simp [applyAction, claim_next_job, hsel, convert_row]
        rw [heq]
        refine ⟨?_, ?_, ?_, ?_⟩
        · intro r hr
          rcases mem_updateWhere_dest hr with ⟨r0, hr0, hcase⟩
          have hid : r.id = r0.id := by
            rcases hcase with ⟨_, rfl⟩ | ⟨_, rfl⟩ <;> rfl
          rw [hid]
          exact h.idsBound r0 hr0
        · rw [updateWhere_map_id (by intro r; rfl)]
          exact h.idsNodup
        · intro r hr _
          rcases mem_updateWhere_dest hr with ⟨r0, hr0, hcase⟩
          rcases hcase with ⟨hid0, rfl⟩ | ⟨_, rfl⟩
          · rw [show ({ r0 with status := "running", started_at := some t } : JobRow).id
                = r0.id from rfl, hid0]
          · exact Option.noConfusion (h.runWorker r hr0 (by assumption))
        · intro r hr hq2
          rcases mem_updateWhere_dest hr with ⟨r0, hr0, hcase⟩
          rcases hcase with ⟨_, rfl⟩ | ⟨_, rfl⟩
          · simp at hq2
          · exact h.queuedUnstarted r hr0 hq2
  | setLog path =>
    cases w with
    | none =>
      exact h
    | some j =>
      have heq : applyAction (.setLog path) t ⟨db, some j⟩ =
          ⟨set_log_path db j path, some j⟩ := by
        simp [applyAction]
      rw [heq]
      refine ⟨?_, ?_, ?_, ?_⟩
      · intro r hr
        simp only [set_log_path] at hr ⊢
        rcases mem_updateWhere_dest hr with ⟨r0, hr0, hcase⟩
        have hid : r.id = r0.id := by
          rcases hcase with ⟨_, rfl⟩ | ⟨_, rfl⟩ <;> rfl
        rw [hid]
        exact h.idsBound r0 hr0
      · simp only [set_log_path]
        rw [updateWhere_map_id (by intro r; rfl)]
        exact h.idsNodup
      · intro r hr hrun
        simp only [set_log_path] at hr
        rcases mem_updateWhere_dest hr with ⟨r0, hr0, hcase⟩
        rcases hcase with ⟨_, rfl⟩ | ⟨_, rfl⟩
        · exact h.runWorker r0 hr0 hrun
        · exact h.runWorker r hr0 hrun
      · intro r hr hq2
        simp only [set_log_path] at hr
        rcases mem_updateWhere_dest hr with ⟨r0, hr0, hcase⟩
        rcases hcase with ⟨_, rfl⟩ | ⟨_, rfl⟩
        · exact h.queuedUnstarted r0 hr0 hq2
        · exact h.queuedUnstarted r hr0 hq2
  | markDone =>
    cases w with
    | none =>
      exact h
    | some j =>
      have heq : applyAction .markDone t ⟨db, some j⟩ = ⟨mark_done db j t, none⟩ := by
        simp [applyAction]
      rw [heq]
      refine ⟨?_, ?_, ?_, ?_⟩
      · intro r hr
        simp only [mark_done] at hr ⊢
        rcases mem_updateWhere_dest hr with ⟨r0, hr0, hcase⟩
        have hid : r.id = r0.id := by
          rcases hcase with ⟨_, rfl⟩ | ⟨_, rfl⟩ <;> rfl
        rw [hid]
        exact h.idsBound r0 hr0
      · simp only [mark_done]
        rw [updateWhere_map_id (by intro r; rfl)]
        exact h.idsNodup
      · intro r hr hrun
        simp only [mark_done] at hr
        rcases mem_updateWhere_dest hr with ⟨r0, hr0, hcase⟩
        rcases hcase with ⟨_, rfl⟩ | ⟨hne, rfl⟩
        · simp at hrun
        · have hrw := h.runWorker r hr0 hrun
          exact absurd (Option.some_inj.mp hrw).symm hne
      · intro r hr hq2
        simp only [mark_done] at hr
        rcases mem_updateWhere_dest hr with ⟨r0, hr0, hcase⟩
        rcases hcase with ⟨_, rfl⟩ | ⟨_, rfl⟩
        · simp at hq2
        · exact h.queuedUnstarted r hr0 hq2
  | markFailed err =>
    cases w with
    | none =>
      exact h
    | some j =>
      have heq : applyAction (.markFailed err) t ⟨db, some j⟩ =
          ⟨mark_failed db j err t, none⟩ := by
        simp [applyAction]
      rw [heq]
      refine ⟨?_, ?_, ?_, ?_⟩
      · intro r hr
        simp only [mark_failed] at hr ⊢
        rcases mem_updateWhere_dest hr with ⟨r0, hr0, hcase⟩
        have hid : r.id = r0.id := by
          rcases hcase with ⟨_, rfl⟩ | ⟨_, rfl⟩ <;> rfl
        rw [hid]
        exact h.idsBound r0 hr0
      · simp only [mark_failed]
        rw [updateWhere_map_id (by intro r; rfl)]
        exact h.idsNodup
      · intro r hr hrun
        simp only [mark_failed] at hr
        rcases mem_updateWhere_dest hr with ⟨r0, hr0, hcase⟩
        rcases hcase with ⟨_, rfl⟩ | ⟨hne, rfl⟩
        · simp at hrun
        · have hrw := h.runWorker r hr0 hrun
          exact absurd (Option.some_inj.mp hrw).symm hne
      · intro r hr hq2
        simp only [mark_failed] at hr
        rcases mem_updateWhere_dest hr with ⟨r0, hr0, hcase⟩
        rcases hcase with ⟨_, rfl⟩ | ⟨_, rfl⟩
        · simp at hq2
        · exact h.queuedUnstarted r hr0 hq2

/-- Timed inductive invariant; `t` is the time of the latest step.
Timestamps never exceed the clock, and relative to any row already
started, every smaller-id row is no longer queued and was started no
later. -/
structure InvT (t : Nat) (s : SysState) : Prop where
  base : InvA s
  startedLe : ∀ r ∈ s.db.jobs, ∀ ts, r.started_at = some ts → ts ≤ t
  fifo : ∀ r1 ∈ s.db.jobs, ∀ r2 ∈ s.db.jobs, r1.id < r2.id →
    ∀ t2, r2.started_at = some t2 →
      ¬ r1.status = "queued" ∧ ∀ t1, r1.started_at = some t1 → t1 ≤ t2

theorem InvT_mono {t t' : Nat} {s : SysState} (h : InvT t s) (hle : t ≤ t') :
    InvT t' s :=
  ⟨h.base, fun r hr ts hts => Nat.le_trans (h.startedLe r hr ts hts) hle, h.fifo⟩

theorem mem_updateWhere_fields {jobs : List JobRow} {jid : Nat} {f : JobRow → JobRow}
    (hid : ∀ r, (f r).id = r.id) (hst : ∀ r, (f r).started_at = r.started_at)
    {x : JobRow} (hx : x ∈ updateWhere jobs jid f) :
    ∃ r ∈ jobs, x.id = r.id ∧ x.started_at = r.started_at ∧ (x = r ∨ x = f r) := by
  rcases mem_updateWhere_dest hx with ⟨r, hr, hcase⟩
  rcases hcase with ⟨h1, h2⟩ | ⟨h1, h2⟩
  · exact ⟨r, hr, by rw [h2, hid r], by rw [h2, hst r], Or.inr h2⟩
  · exact ⟨r, hr, by rw [h2], by rw [h2], Or.inl h2⟩

theorem InvT_applyAction (a : Action) {t t' : Nat} {s : SysState}
    (h : InvT t s) (hle : t ≤ t') : InvT t' (applyAction a t' s) := by
  obtain ⟨db, w⟩ := s
  cases a with
  | enqueue e rf m fc =>
    refine ⟨InvA_applyAction _ _ h.base, ?_, ?_⟩
    · intro r hr ts hts
      simp only [applyAction, enqueue_job] at hr
      rcases List.mem_append.mp hr with h1 | h1
      · exact Nat.le_trans (h.startedLe r h1 ts hts) hle
      · rcases List.mem_singleton.mp h1 with rfl
        cases hts
    · intro r1 hr1 r2 hr2 hlt t2 ht2
      simp only [applyAction, enqueue_job] at hr1 hr2
      rcases List.mem_append.mp hr2 with h2 | h2
      · rcases List.mem_append.mp hr1 with h1 | h1
        · exact h.fifo r1 h1 r2 h2 hlt t2 ht2
        · rcases List.mem_singleton.mp h1 with rfl
          have hb := h.base.idsBound r2 h2
          have : (db.next_id : Nat) < db.next_id := Nat.lt_trans hlt hb
          exact absurd this (Nat.lt_irrefl _)
      · rcases List.mem_singleton.mp h2 with rfl
        cases ht2
  | cancel jid =>
    have hid : ∀ r : JobRow,
        ((fun r => if r.status = "queued" then
            { r with status := "canceled", finished_at := some t' } else r) r).id = r.id := by
      intro r
      by_cases hq : r.status = "queued" <;> simp [hq]
    have hst : ∀ r : JobRow,
        ((fun r => if r.status = "queued" then
            { r with status := "canceled", finished_at := some t' } else r) r).started_at
          = r.started_at := by
      intro r
      by_cases hq : r.status = "queued" <;> simp [hq]
    refine ⟨InvA_applyAction _ _ h.base, ?_, ?_⟩
    · intro r hr ts hts
      simp only [applyAction, cancel_job] at hr
      rcases mem_updateWhere_fields hid hst hr with ⟨r0, hr0, _, hst0, _⟩
      rw [hst0] at hts
      exact Nat.le_trans (h.startedLe r0 hr0 ts hts) hle
    · intro r1 hr1 r2 hr2 hlt t2 ht2
      simp only [applyAction, cancel_job] at hr1 hr2
      rcases mem_updateWhere_fields hid hst hr1 with ⟨q1, hq1, hid1, hst1, hcase1⟩
      rcases mem_updateWhere_fields hid hst hr2 with ⟨q2, hq2, hid2, hst2, _⟩
      rw [hid1, hid2] at hlt
      rw [hst2] at ht2
      have hold := h.fifo q1 hq1 q2 hq2 hlt t2 ht2
      constructor
      · rcases hcase1 with rfl | rfl
        · exact hold.1
        · by_cases hq : q1.status = "queued"
          · simp [hq]
          · simp [hq]
      · intro t1 ht1
        rw [hst1] at ht1
        exact hold.2 t1 ht1
  | claim =>
    cases w with
    | some j => exact InvT_mono h hle
    | none =>
      cases hsel : selectMinQueued db.jobs with
      | none =>
        have heq : applyAction .claim t' ⟨db, none⟩ = ⟨db, none⟩ := by
          simp [applyAction, claim_next_job, hsel]
        rw [heq]
        exact InvT_mono h hle
      | some m =>
        have hmem := selectMinQueued_mem hsel
        have hmq := selectMinQueued_queued hsel
        have heq : applyAction .claim t' ⟨db, none⟩ =
            ⟨{ jobs := updateWhere db.jobs m.id fun x =>
                 { x with status := "running", started_at := some t' },
               next_id := db.next_id }, some m.id⟩ := by
          simp [applyAction, claim_next_job, hsel, convert_row]
        rw [heq]
        refine ⟨?_, ?_, ?_⟩
        · have := InvA_applyAction .claim t' h.base
          rw [heq] at this
          exact this
        · intro r hr ts hts
          rcases mem_updateWhere_dest hr with ⟨r0, hr0, hcase⟩
          rcases hcase with ⟨_, rfl⟩ | ⟨_, rfl⟩
          · have : some t' = some ts := hts
            rw [← Option.some_inj.mp this]
          · exact Nat.le_trans (h.startedLe r hr0 ts hts) hle
        · intro x1 hx1 x2 hx2 hlt t2 ht2
          rcases mem_updateWhere_dest hx1 with ⟨r1, hr1, hcase1⟩
          rcases mem_updateWhere_dest hx2 with ⟨r2, hr2, hcase2⟩
          rcases hcase2 with ⟨hid2, rfl⟩ | ⟨_, rfl⟩
          · have ht2' : t2 = t' := (Option.some_inj.mp ht2).symm
            rcases hcase1 with ⟨hid1, rfl⟩ | ⟨_, rfl⟩
            · have : r1.id = r2.id := hid1.trans hid2.symm
              have hx : r1.id < r2.id := hlt
              rw [this] at hx
              exact absurd hx (Nat.lt_irrefl _)
            · constructor
              · intro hq
                have hmin := selectMinQueued_min hsel x1 hr1 hq
                rw [hid2] at hlt
                have : m.id < m.id := Nat.lt_of_le_of_lt hmin hlt
                exact absurd this (Nat.lt_irrefl _)
              · intro t1 ht1
                rw [ht2']
                exact Nat.le_trans (h.startedLe x1 hr1 t1 ht1) hle
          · rcases hcase1 with ⟨hid1, rfl⟩ | ⟨_, rfl⟩
            · have hr1m : r1 = m := eq_of_id_eq_of_nodup h.base.idsNodup hr1 hmem hid1
              have hold := h.fifo r1 hr1 x2 hr2 hlt t2 ht2
              rw [hr1m] at hold
              exact absurd hmq hold.1
            · exact h.fifo x1 hr1 x2 hr2 hlt t2 ht2
  | setLog path =>
    cases w with
    | none => exact InvT_mono h hle
    | some j =>
      have heq : applyAction (.setLog path) t' ⟨db, some j⟩ =
          ⟨set_log_path db j path, some j⟩ := by
        simp [applyAction]
      rw [heq]
      refine ⟨?_, ?_, ?_⟩
      · have := InvA_applyAction (.setLog path) t' h.base
        rw [heq] at this
        exact this
      · intro r hr ts hts
        simp only [set_log_path] at hr
        rcases mem_updateWhere_fields (by intro r; rfl) (by intro r; rfl) hr with
          ⟨r0, hr0, _, hst0, _⟩
        rw [hst0] at hts
        exact Nat.le_trans (h.startedLe r0 hr0 ts hts) hle
      · intro x1 hx1 x2 hx2 hlt t2 ht2
        simp only [set_log_path] at hx1 hx2
        rcases mem_updateWhere_fields (by intro r; rfl) (by intro r; rfl) hx1 with
          ⟨r1, hr1, hid1, hst1, hcase1⟩
        rcases mem_updateWhere_fields (by intro r; rfl) (by intro r; rfl) hx2 with
          ⟨r2, hr2, hid2, hst2, _⟩
        rw [hid1, hid2] at hlt
        rw [hst2] at ht2
        have hold := h.fifo r1 hr1 r2 hr2 hlt t2 ht2
        constructor
        · rcases hcase1 with rfl | rfl
          · exact hold.1
          · exact hold.1
        · intro t1 ht1
          rw [hst1] at ht1
          exact hold.2 t1 ht1
  | markDone =>
    cases w with
    | none => exact InvT_mono h hle
    | some j =>
      have heq : applyAction .markDone t' ⟨db, some j⟩ = ⟨mark_done db j t', none⟩ := by
        simp [applyAction]
      rw [heq]
      refine ⟨?_, ?_, ?_⟩
      · have := InvA_applyAction .markDone t' h.base
        rw [heq] at this
        exact this
      · intro r hr ts hts
        simp only [mark_done] at hr
        rcases mem_updateWhere_fields (by intro r; rfl) (by intro r; rfl) hr with
          ⟨r0, hr0, _, hst0, _⟩
        rw [hst0] at hts
        exact Nat.le_trans (h.startedLe r0 hr0 ts hts) hle
      · intro x1 hx1 x2 hx2 hlt t2 ht2
        simp only [mark_done] at hx1 hx2
        rcases mem_updateWhere_fields (by intro r; rfl) (by intro r; rfl) hx1 with
          ⟨r1, hr1, hid1, hst1, hcase1⟩
        rcases mem_updateWhere_fields (by intro r; rfl) (by intro r; rfl) hx2 with
          ⟨r2, hr2, hid2, hst2, _⟩
        rw [hid1, hid2] at hlt
        rw [hst2] at ht2
        have hold := h.fifo r1 hr1 r2 hr2 hlt t2 ht2
        constructor
        · rcases hcase1 with rfl | rfl
          · exact hold.1
          · simp
        · intro t1 ht1
          rw [hst1] at ht1
          exact hold.2 t1 ht1
  | markFailed err =>
    cases w with
    | none => exact InvT_mono h hle
    | some j =>
      have heq : applyAction (.markFailed err) t' ⟨db, some j⟩ =
          ⟨mark_failed db j err t', none⟩ := by
        simp [applyAction]
      rw [heq]
      refine ⟨?_, ?_, ?_⟩
      · have := InvA_applyAction (.markFailed err) t' h.base
        rw [heq] at this
        exact this
      · intro r hr ts hts
        simp only [mark_failed] at hr
        rcases mem_updateWhere_fields (by intro r; rfl) (by intro r; rfl) hr with
          ⟨r0, hr0, _, hst0, _⟩
        rw [hst0] at hts
        exact Nat.le_trans (h.startedLe r0 hr0 ts hts) hle
      · intro x1 hx1 x2 hx2 hlt t2 ht2
        simp only [mark_failed] at hx1 hx2
        rcases mem_updateWhere_fields (by intro r; rfl) (by intro r; rfl) hx1 with
          ⟨r1, hr1, hid1, hst1, hcase1⟩
        rcases mem_updateWhere_fields (by intro r; rfl) (by intro r; rfl) hx2 with
          ⟨r2, hr2, hid2, hst2, _⟩
        rw [hid1, hid2] at hlt
        rw [hst2] at ht2
        have hold := h.fifo r1 hr1 r2 hr2 hlt t2 ht2
        constructor
        · rcases hcase1 with rfl | rfl
          · exact hold.1
          · simp
        · intro t1 ht1
          rw [hst1] at ht1
          exact hold.2 t1 ht1

theorem InvA_initState : InvA initState := by
  refine ⟨?_, List.nodup_nil, ?_, ?_⟩ <;> intro r hr <;> cases hr

theorem InvT_initState : InvT 0 initState := by
  refine ⟨InvA_initState, ?_, ?_⟩
  · intro r hr
    cases hr
  · intro r1 hr1
    cases hr1

theorem InvA_runFrom {s : SysState} (h : InvA s) (tr : List (Nat × Action)) :
    InvA (runFrom s tr) := by
  induction tr generalizing s with
  | nil => exact h
  | cons p rest ih =>
    obtain ⟨tp, ap⟩ := p
    exact ih (InvA_applyAction ap tp h)

theorem InvA_run (tr : List (Nat × Action)) : InvA (run tr) :=
  InvA_runFrom InvA_initState tr

theorem InvT_runFrom {t : Nat} {s : SysState} (h : InvT t s)
    {tr : List (Nat × Action)} (hnd : timesND t tr = true) :
    ∃ t', InvT t' (runFrom s tr) := by
  induction tr generalizing t s with
  | nil => exact ⟨t, h⟩
  | cons p rest ih =>
    obtain ⟨tp, ap⟩ := p
    simp only [timesND, Bool.and_eq_true, decide_eq_true_eq] at hnd
    exact ih (InvT_applyAction ap h hnd.1) hnd.2

theorem InvT_run {tr : List (Nat × Action)} (hnd : timesND 0 tr = true) :
    ∃ t', InvT t' (run tr) :=
  InvT_runFrom InvT_initState hnd

theorem getRow_cancel_job (db : DBState) (jid : Nat) (now : Nat) :
    getRow (cancel_job db jid now) jid
      = (getRow db jid).map fun r =>
          if r.status = "queued" then
            { r with status := "canceled", finished_at := some now }
          else r := by
  unfold getRow cancel_job
  exact find_id_updateWhere _ _ _
    (by intro r; by_cases hq : r.status = "queued" <;> simp [hq])

theorem getRow_set_log_path (db : DBState) (jid : Nat) (path : String) :
    getRow (set_log_path db jid path) jid
      = (getRow db jid).map fun r => { r with log_path := some path } := by
  unfold getRow set_log_path
  exact find_id_updateWhere _ _ _ (by intro r; rfl)

theorem getRow_mark_done (db : DBState) (jid : Nat) (now : Nat) :
    getRow (mark_done db jid now) jid
      = (getRow db jid).map fun r =>
          { r with status := "done", finished_at := some now, error := none } := by
  unfold getRow mark_done
  exact find_id_updateWhere _ _ _ (by intro r; rfl)

theorem getRow_mark_failed (db : DBState) (jid : Nat) (error_text : String) (now : Nat) :
    getRow (mark_failed db jid error_text now) jid
      = (getRow db jid).map fun r =>
          { r with status := "failed", finished_at := some now,
                   error := some error_text } := by
  unfold getRow mark_failed
  exact find_id_updateWhere _ _ _ (by intro r; rfl)

theorem getRow_eq_some_of_nodup {db : DBState}
    (hnd : (db.jobs.map (fun r => r.id)).Nodup) {r : JobRow} (hr : r ∈ db.jobs) :
    getRow db r.id = some r :=
  find_id_of_nodup hnd hr

theorem length_le_one_of_id_const {l : List JobRow}
    (hnd : (l.map (fun r => r.id)).Nodup) (j : Nat)
    (hall : ∀ x ∈ l, x.id = j) : l.length ≤ 1 := by
  match l with
  | [] => exact Nat.zero_le 1
  | [a] => exact Nat.le_refl 1
  | a :: b :: rest =>
    exfalso
    have ha := hall a (by simp)
    have hb := hall b (by simp)
    have hmem : b.id ∈ (b :: rest).map (fun r => r.id) := by simp
    have hni := (List.nodup_cons.mp hnd).1
    apply hni
    show a.id ∈ (b :: rest).map (fun r => r.id)
    rw [show a.id = b.id from ha.trans hb.symm]
    exact hmem

theorem countRunning_le_one {s : SysState} (h : InvA s) : countRunning s.db ≤ 1 := by
  unfold countRunning
  have hsub : ((s.db.jobs.filter fun r => decide (r.status = "running")).map
      (fun r => r.id)).Sublist (s.db.jobs.map fun r => r.id) :=
    List.Sublist.map _ (List.filter_sublist _)
  cases hw : s.worker with
  | none =>
    have hnil : (s.db.jobs.filter fun r => decide (r.status = "running")) = [] := by
      rw [List.filter_eq_nil_iff]
      intro a ha hda
      have hrun : a.status = "running" := by simpa using hda
      have := h.runWorker a ha hrun
      rw [hw] at this
      cases this
    rw [hnil]
    exact Nat.zero_le 1
  | some j =>
    apply length_le_one_of_id_const (List.Nodup.sublist hsub h.idsNodup) j
    intro x hx
    have hx' := List.mem_of_mem_filter hx
    have hrun : x.status = "running" := by
      have := List.of_mem_filter hx
      simpa using this
    have := h.runWorker x hx' hrun
    rw [hw] at this
    exact (Option.some_inj.mp this).symm

/-! ## Claim theorems -/

/-- Claim C2: in every state reachable under the single-worker protocol
(one Worker alternating `claim_next_job` with exactly one
`mark_done`/`mark_failed` on the job it claimed, interleaved with any
number of `enqueue_job` and `cancel_job` steps), at most one row has
status `'running'` at any instant. -/
theorem at_most_one_running (tr : List (Nat × Action)) :
    countRunning (run tr).db ≤ 1 :=
  countRunning_le_one (InvA_run tr)

/-- Scenario A store: three jobs enqueued (ids 1, 2, 3, all queued). -/
def db3 : DBState :=
  (enqueue_job ((enqueue_job ((enqueue_job initDB
    "e1" "root" "spines" false 0).1)
    "e2" "root" "spines" false 1).1)
    "e3" "root" "spines" false 2).1

/-- The row job 1 has in `db3` before being claimed. -/
def rowA : JobRow :=
  { id := 1, exp_id := "e1", root_folder := "root", mode := "spines",
    force := 0, status := "queued", created_at := 0, started_at := none,
    finished_at := none, log_path := none, error := none }

/-- Claim C1: `claim_next_job`, as a single indivisible step, either
returns `none` when no row is queued (leaving the store unchanged), or
selects the smallest-id queued row, sets exactly that row's status to
`'running'` and its `started_at` to now, and returns that row's
pre-claim content (status still `'queued'`, `started_at` still null —
which holds in every state reachable under the protocol); in
particular, with jobs 1, 2, 3 enqueued, after claiming job 1 and
canceling job 2, the next `claim_next_job` returns job 3. -/
theorem claim_next_job_spec :
    (∀ db now, ((claim_next_job db now).2 = none ↔
      ∀ r ∈ db.jobs, ¬ r.status = "queued")) ∧
    (∀ db now, (claim_next_job db now).2 = none →
      (claim_next_job db now).1 = db) ∧
    (∀ db now j, (claim_next_job db now).2 = some j →
      ∃ r0 ∈ db.jobs, r0.status = "queued" ∧ j = convert_row r0 ∧
        j.status = "queued" ∧
        (∀ r ∈ db.jobs, r.status = "queued" → r0.id ≤ r.id) ∧
        ((∀ r ∈ db.jobs, r.status = "queued" → r.started_at = none) →
          j.started_at = none) ∧
        ((db.jobs.map fun r => r.id).Nodup →
          getRow (claim_next_job db now).1 r0.id
            = some { r0 with status := "running", started_at := some now }) ∧
        (∀ r ∈ db.jobs, ¬ r.id = r0.id → r ∈ (claim_next_job db now).1.jobs)) ∧
    (∀ tr, ∀ r ∈ (run tr).db.jobs, r.status = "queued" → r.started_at = none) ∧
    ((claim_next_job db3 10).2.map (fun j => j.id) = some 1 ∧
      (claim_next_job (cancel_job (claim_next_job db3 10).1 2 11) 12).2.map
        (fun j => j.id) = some 3) := by
  refine ⟨?_, ?_, ?_, ?_, rfl, rfl⟩
  · intro db now
    cases hsel : selectMinQueued db.jobs with
    | none =>
      rw [claim_next_job_of_sel_none _ hsel]
      simpa using selectMinQueued_eq_none.mp hsel
    | some m =>
      rw [claim_next_job_of_sel_some _ hsel]
      constructor
      · intro hc
        cases hc
      · intro hall
        rw [selectMinQueued_eq_none.mpr hall] at hsel
        cases hsel
  · intro db now hnone
    cases hsel : selectMinQueued db.jobs with
    | none => rw [claim_next_job_of_sel_none _ hsel]
    | some m =>
      rw [claim_next_job_of_sel_some _ hsel] at hnone
      cases hnone
  · intro db now j hj
    cases hsel : selectMinQueued db.jobs with
    | none =>
      rw [claim_next_job_of_sel_none _ hsel] at hj
      cases hj
    | some m =>
      rw [claim_next_job_of_sel_some _ hsel] at hj
      have hjm : j = convert_row m := (Option.some_inj.mp hj).symm
      refine ⟨m, selectMinQueued_mem hsel, selectMinQueued_queued hsel, hjm, ?_, ?_,
        ?_, ?_, ?_⟩
      · rw [hjm]
        exact selectMinQueued_queued hsel
      · exact selectMinQueued_min hsel
      · intro hall
        rw [hjm]
        exact hall m (selectMinQueued_mem hsel) (selectMinQueued_queued hsel)
      · intro hnd
        rw [claim_next_job_of_sel_some _ hsel]
        show (updateWhere db.jobs m.id fun x =>
          { x with status := "running", started_at := some now }).find?
            (fun r => decide (r.id = m.id)) = _
        rw [find_id_updateWhere _ _ _ (by intro r; rfl)]
        rw [show db.jobs.find? (fun r => decide (r.id = m.id)) = some m from
          find_id_of_nodup hnd (selectMinQueued_mem hsel)]
        rfl
      · intro r hr hne
        rw [claim_next_job_of_sel_some _ hsel]
        exact mem_updateWhere_of_ne hr hne
  · intro tr r hr hq
    exact (InvA_run tr).queuedUnstarted r hr hq

/-- Witness for C1: in the Scenario A store, the first claim returns
job 1's pre-claim content, whose status is still `'queued'` and whose
`started_at` is still null. -/
theorem claim_next_job_spec_witness :
    (claim_next_job db3 10).2 = some (convert_row rowA) ∧
    (convert_row rowA).status = "queued" ∧
    (convert_row rowA).started_at = none := by
  have hsome : (claim_next_job db3 10).2 = some (convert_row rowA) := rfl
  rcases claim_next_job_spec.2.2.1 db3 10 (convert_row rowA) hsome with
    ⟨r0, hr0, hq0, hj, hjs, hmin, hstart, hget, hmem⟩
  exact ⟨hsome, hjs, hstart (by decide)⟩

/-- Claim C3: single claim steps never claim a job while a smaller-id
row is still queued, and along every execution with nondecreasing
wall-clock times, if a larger-id row has started then every smaller-id
row is no longer queued and, when also started, started no later. -/
theorem fifo_claim_order :
    (∀ db now j, (claim_next_job db now).2 = some j →
      ∀ r ∈ db.jobs, r.status = "queued" → j.id ≤ r.id) ∧
    (∀ tr, timesND 0 tr = true →
      ∀ r1 ∈ (run tr).db.jobs, ∀ r2 ∈ (run tr).db.jobs, r1.id < r2.id →
        (¬ r2.started_at = none → ¬ r1.status = "queued") ∧
        (∀ t1 t2, r1.started_at = some t1 → r2.started_at = some t2 →
          t1 ≤ t2)) := by
  constructor
  · intro db now j hj r hr hq
    cases hsel : selectMinQueued db.jobs with
    | none =>
      rw [claim_next_job_of_sel_none _ hsel] at hj
      cases hj
    | some m =>
      rw [claim_next_job_of_sel_some _ hsel] at hj
      have hjm : j = convert_row m := (Option.some_inj.mp hj).symm
      rw [hjm]
      exact selectMinQueued_min hsel r hr hq
  · intro tr htimes r1 hr1 r2 hr2 hlt
    rcases InvT_run htimes with ⟨t', hT⟩
    constructor
    · intro hne hq
      cases hs2 : r2.started_at with
      | none => exact hne hs2
      | some t2 => exact (hT.fifo r1 hr1 r2 hr2 hlt t2 hs2).1 hq
    · intro t1 t2 h1 h2
      exact (hT.fifo r1 hr1 r2 hr2 hlt t2 h2).2 t1 h1

/-- FIFO witness trace: enqueue jobs 1 and 2, claim job 1, mark it
done, then claim job 2. -/
def trF : List (Nat × Action) :=
  [(0, .enqueue "a" "r" "m" false), (1, .enqueue "b" "r" "m" false),
   (2, .claim), (3, .markDone), (4, .claim)]

/-- Job 1's row at the end of `trF`. -/
def rowF1 : JobRow :=
  { id := 1, exp_id := "a", root_folder := "r", mode := "m", force := 0,
    status := "done", created_at := 0, started_at := some 2,
    finished_at := some 3, log_path := none, error := none }

/-- Job 2's row at the end of `trF`. -/
def rowF2 : JobRow :=
  { id := 2, exp_id := "b", root_folder := "r", mode := "m", force := 0,
    status := "running", created_at := 1, started_at := some 4,
    finished_at := none, log_path := none, error := none }

/-- Witness for C3: on the trace `trF`, job 1 (enqueued first, claimed
at time 2) started no later than job 2 (claimed at time 4) and is no
longer queued. -/
theorem fifo_claim_order_witness :
    timesND 0 trF = true ∧ rowF1.started_at = some 2 ∧
    rowF2.started_at = some 4 ∧ (2 : Nat) ≤ 4 ∧
    ¬ rowF1.status = "queued" := by
  have h := fifo_claim_order.2 trF (by decide) rowF1 (by decide) rowF2 (by decide)
    (by decide)
  exact ⟨by decide, rfl, rfl, h.2 2 4 rfl rfl, h.1 (by decide)⟩

/-- Claim C4: `cancel_job` sets the row's status to `'canceled'` and
`finished_at` to now iff its current status is `'queued'`; on a row in
any other status it affects zero rows, leaves the row (indeed the whole
store) unchanged, and is a silent no-op rather than an error. -/
theorem cancel_job_conditional :
    (∀ db jid now r, getRow db jid = some r → r.status = "queued" →
      getRow (cancel_job db jid now) jid
        = some { r with status := "canceled", finished_at := some now }) ∧
    (∀ db jid now r, getRow db jid = some r → ¬ r.status = "queued" →
      getRow (cancel_job db jid now) jid = some r) ∧
    (∀ db jid now, (∀ r ∈ db.jobs, r.id = jid → ¬ r.status = "queued") →
      cancel_job db jid now = db) := by
  refine ⟨?_, ?_, ?_⟩
  · intro db jid now r hget hq
    rw [getRow_cancel_job, hget]
    simp [hq]
  · intro db jid now r hget hq
    rw [getRow_cancel_job, hget]
    simp [hq]
  · intro db jid now hall
    have hmap : updateWhere db.jobs jid (fun r =>
        if r.status = "queued" then
          { r with status := "canceled", finished_at := some now }
        else r) = db.jobs := by
      have hcongr : ∀ r ∈ db.jobs,
          (if r.id = jid then
            (if r.status = "queued" then
              { r with status := "canceled", finished_at := some now }
            else r)
          else r) = r := by
        intro r hr
        by_cases hid : r.id = jid
        · simp [hid, hall r hr hid]
        · simp [hid]
      unfold updateWhere
      exact (List.map_congr_left hcongr).trans (List.map_id _)
    show ({ jobs := updateWhere db.jobs jid _, next_id := db.next_id } : DBState) = db
    rw [hmap]

/-- Job 2's row in `db3` after job 1 has been claimed. -/
def rowB : JobRow :=
  { id := 2, exp_id := "e2", root_folder := "root", mode := "spines",
    force := 0, status := "queued", created_at := 1, started_at := none,
    finished_at := none, log_path := none, error := none }

/-- Witness for C4: after claiming job 1 out of `db3`, canceling queued
job 2 marks it canceled with `finished_at` set, while canceling the
running job 1 leaves the whole store unchanged. -/
theorem cancel_job_conditional_witness :
    getRow (cancel_job (claim_next_job db3 10).1 2 11) 2
      = some { rowB with status := "canceled", finished_at := some 11 } ∧
    cancel_job (claim_next_job db3 10).1 1 11 = (claim_next_job db3 10).1 := by
  constructor
  · exact cancel_job_conditional.1 (claim_next_job db3 10).1 2 11 rowB rfl rfl
  · exact cancel_job_conditional.2.2 (claim_next_job db3 10).1 1 11 (by decide)

/-- Claim C9: `mark_done`, `mark_failed` and `set_log_path` are
unconditional updates keyed only by the job id — whatever the row's
current status, including the terminal ones, `mark_done` overwrites it
to `'done'`, resets `finished_at` and clears `error`; `mark_failed`
overwrites to `'failed'` and stores the error; `set_log_path` replaces
only `log_path`; the store enforces no terminal-state immutability, and
`cancel_job` is the only status-conditional update. -/
theorem unconditional_updates :
    (∀ db jid now r, getRow db jid = some r →
      getRow (mark_done db jid now) jid
        = some { r with status := "done", finished_at := some now,
                        error := none }) ∧
    (∀ db jid e now r, getRow db jid = some r →
      getRow (mark_failed db jid e now) jid
        = some { r with status := "failed", finished_at := some now,
                        error := some e }) ∧
    (∀ db jid p r, getRow db jid = some r →
      getRow (set_log_path db jid p) jid
        = some { r with log_path := some p }) ∧
    (∀ db jid now r, getRow db jid = some r → ¬ r.status = "queued" →
      getRow (cancel_job db jid now) jid = some r) := by
  refine ⟨?_, ?_, ?_, ?_⟩
  · intro db jid now r hget
    rw [getRow_mark_done, hget]
    rfl
  · intro db jid e now r hget
    rw [getRow_mark_failed, hget]
    rfl
  · intro db jid p r hget
    rw [getRow_set_log_path, hget]
    rfl
  · intro db jid now r hget hq
    rw [getRow_cancel_job, hget]
    simp [hq]

/-- Job 1's row after `cancel_job db3 1 5`: canceled (terminal). -/
def rowACx : JobRow :=
  { id := 1, exp_id := "e1", root_folder := "root", mode := "spines",
    force := 0, status := "canceled", created_at := 0, started_at := none,
    finished_at := some 5, log_path := none, error := none }

/-- Witness for C9: `mark_done` on an already-`canceled` job overwrites
the terminal state to `'done'` and resets `finished_at`. -/
theorem unconditional_updates_witness :
    getRow (cancel_job db3 1 5) 1 = some rowACx ∧
    getRow (mark_done (cancel_job db3 1 5) 1 7) 1
      = some { rowACx with status := "done", finished_at := some 7,
                           error := none } :=
  ⟨rfl, unconditional_updates.1 (cancel_job db3 1 5) 1 7 rowACx rfl⟩

/-- Claim C8: when the job body raises an exception with message `msg`,
the Worker marks the claimed job `'failed'` with `error` holding the
full traceback ending in `msg`, `finished_at = now`, `started_at` the
claim time, every other field exactly as at claim time, other rows
untouched; the Worker survives and its next iteration claims the next
queued job. -/
theorem worker_failure_spec :
    ∀ db r0 frames excType msg logsDir tClaim tFinish dbF outF,
      (db.jobs.map fun r => r.id).Nodup →
      selectMinQueued db.jobs = some r0 →
      worker_iteration db none (some (frames, excType, msg)) logsDir
        tClaim tFinish = (dbF, outF) →
      (claim_next_job db tClaim).2 = some (convert_row r0) ∧
      outF = .finished r0.id ∧
      getRow dbF r0.id
        = some { r0 with status := "failed", started_at := some tClaim,
                         finished_at := some tFinish,
                         log_path := some (jobLogPath logsDir r0.id r0.exp_id),
                         error := some (format_exc frames excType msg) } ∧
      (∃ pre, format_exc frames excType msg = pre ++ msg ++ "\n") ∧
      (∀ r ∈ db.jobs, ¬ r.id = r0.id → r ∈ dbF.jobs) ∧
      (∀ be2 tc2 tf2, (∃ rq ∈ dbF.jobs, rq.status = "queued") →
        ∃ jid2, (worker_iteration dbF none be2 logsDir tc2 tf2).2
          = .finished jid2) := by
  intro db r0 frames excType msg logsDir tClaim tFinish dbF outF hnd hsel hiter
  have hclaim := claim_next_job_of_sel_some tClaim hsel
  rw [show worker_iteration db none (some (frames, excType, msg)) logsDir
        tClaim tFinish
      = (mark_failed (set_log_path (claim_next_job db tClaim).1
          (convert_row r0).id (jobLogPath logsDir (convert_row r0).id
            (convert_row r0).exp_id))
          (convert_row r0).id (format_exc frames excType msg) tFinish,
         .finished (convert_row r0).id) from by
    rw [worker_iteration]
    rw [hclaim]] at hiter
  injection hiter with hdbF houtF
  refine ⟨by rw [hclaim], houtF.symm, ?_, ?_, ?_, ?_⟩
  · rw [← hdbF]
    rw [show ((convert_row r0).id : Nat) = r0.id from rfl]
    rw [getRow_mark_failed, getRow_set_log_path]
    rw [show getRow (claim_next_job db tClaim).1 r0.id
        = some { r0 with status := "running", started_at := some tClaim } from by
      rw [hclaim]
      show (updateWhere db.jobs r0.id fun x =>
        { x with status := "running", started_at := some tClaim }).find?
          (fun r => decide (r.id = r0.id)) = _
      rw [find_id_updateWhere _ _ _ (by intro r; rfl)]
      rw [find_id_of_nodup hnd (selectMinQueued_mem hsel)]
      rfl]
    rfl
  · exact ⟨"Traceback (most recent call last):\n" ++ frames ++ excType ++ ": ", rfl⟩
  · intro r hr hne
    rw [← hdbF]
    apply mem_updateWhere_of_ne
    · apply mem_updateWhere_of_ne
      · rw [hclaim]
        exact mem_updateWhere_of_ne hr hne
      · exact hne
    · exact hne
  · intro be2 tc2 tf2 hq
    cases hsel2 : selectMinQueued dbF.jobs with
    | none =>
      rcases hq with ⟨rq, hrq, hrqs⟩
      exact absurd hrqs (selectMinQueued_eq_none.mp hsel2 rq hrq)
    | some m2 =>
      refine ⟨m2.id, ?_⟩
      cases be2 with
      | none =>
        rw [worker_iteration, claim_next_job_of_sel_some _ hsel2]
        rfl
      | some p =>
        obtain ⟨f2, ty2, ms2⟩ := p
        rw [worker_iteration, claim_next_job_of_sel_some _ hsel2]
        rfl

/-- Witness for C8: with jobs 1, 2, 3 queued, a job body raising
`OSError("disk full")` leaves job 1 `'failed'` with the traceback in
`error`, `started_at` at the claim time 5 and `finished_at` 9, and the
iteration reports a finished job rather than a crash. -/
theorem worker_failure_spec_witness :
    (worker_iteration db3 none (some ("  stack\n", "OSError", "disk full"))
        "logs" 5 9).2 = .finished 1 ∧
    getRow (worker_iteration db3 none
        (some ("  stack\n", "OSError", "disk full")) "logs" 5 9).1 1
      = some { rowA with status := "failed", started_at := some 5,
                         finished_at := some 9,
                         log_path := some (jobLogPath "logs" 1 "e1"),
                         error := some (format_exc "  stack\n" "OSError"
                           "disk full") } := by
  have h := worker_failure_spec db3 rowA "  stack\n" "OSError" "disk full"
    "logs" 5 9
    (worker_iteration db3 none (some ("  stack\n", "OSError", "disk full"))
      "logs" 5 9).1
    (worker_iteration db3 none (some ("  stack\n", "OSError", "disk full"))
      "logs" 5 9).2
    (by decide) rfl rfl
  exact ⟨h.2.1, h.2.2.1⟩

theorem mem_insertByIdAsc {x r : JobRow} {l : List JobRow} :
    x ∈ insertByIdAsc r l ↔ x = r ∨ x ∈ l := by
  induction l with
  | nil => simp [insertByIdAsc]
  | cons a rest ih =>
    by_cases hle : r.id ≤ a.id
    · simp [insertByIdAsc, hle]
    · simp [insertByIdAsc, hle, ih]
      tauto

theorem mem_sortByIdAsc {x : JobRow} {l : List JobRow} :
    x ∈ sortByIdAsc l ↔ x ∈ l := by
  induction l with
  | nil => simp [sortByIdAsc]
  | cons a rest ih => simp [sortByIdAsc, mem_insertByIdAsc, ih]

theorem mem_insertByFinDesc {x r : JobRow} {l : List JobRow} :
    x ∈ insertByFinDesc r l ↔ x = r ∨ x ∈ l := by
  induction l with
  | nil => simp [insertByFinDesc]
  | cons a rest ih =>
    by_cases hle : optNatLt a.finished_at r.finished_at = true
    · simp [insertByFinDesc, hle]
    · simp [insertByFinDesc, hle, ih]
      tauto

theorem mem_sortByFinDesc {x : JobRow} {l : List JobRow} :
    x ∈ sortByFinDesc l ↔ x ∈ l := by
  induction l with
  | nil => simp [sortByFinDesc]
  | cons a rest ih => simp [sortByFinDesc, mem_insertByFinDesc, ih]

theorem selectMaxRunning_mem {l : List JobRow} {m : JobRow}
    (h : selectMaxRunning l = some m) : m ∈ l ∧ m.status = "running" := by
  induction l generalizing m with
  | nil => simp [selectMaxRunning] at h
  | cons a rest ih =>
    by_cases hr : a.status = "running"
    · cases hb : selectMaxRunning rest with
      | none =>
        simp [selectMaxRunning, hr, hb] at h
        rcases h with rfl
        exact ⟨List.mem_cons_self a rest, hr⟩
      | some m0 =>
        by_cases hlt : optNatLt a.started_at m0.started_at = true
        · simp [selectMaxRunning, hr, hb, hlt] at h
          rcases ih (h ▸ hb) with ⟨hmem, hst⟩
          exact ⟨List.mem_cons_of_mem a hmem, hst⟩
        · simp [selectMaxRunning, hr, hb, hlt] at h
          rcases h with rfl
          exact ⟨List.mem_cons_self a rest, hr⟩
    · simp [selectMaxRunning, hr] at h
      rcases ih h with ⟨hmem, hst⟩
      exact ⟨List.mem_cons_of_mem a hmem, hst⟩

theorem mem_get_queued {db : DBState} {limit : Nat} {j : Job}
    (h : j ∈ get_queued db limit) :
    ∃ r ∈ db.jobs, r.status = "queued" ∧ j = convert_row r := by
  unfold get_queued at h
  rcases List.mem_map.mp h with ⟨r, hr, hconv⟩
  have hr2 := List.take_subset _ _ hr
  have hr3 := mem_sortByIdAsc.mp hr2
  refine ⟨r, List.mem_of_mem_filter hr3, ?_, hconv.symm⟩
  have := List.of_mem_filter hr3
  simpa using this

theorem mem_get_running {db : DBState} {j : Job}
    (h : get_running db = some j) :
    ∃ r ∈ db.jobs, r.status = "running" ∧ j = convert_row r := by
  unfold get_running at h
  cases hsel : selectMaxRunning db.jobs with
  | none =>
    rw [hsel] at h
    cases h
  | some m =>
    rw [hsel] at h
    rcases selectMaxRunning_mem hsel with ⟨hmem, hst⟩
    exact ⟨m, hmem, hst, (Option.some_inj.mp h).symm⟩

theorem mem_get_last_finished {db : DBState} {n : Nat} {j : Job}
    (h : j ∈ get_last_finished db n) :
    ∃ r ∈ db.jobs, isFinished r = true ∧ j = convert_row r := by
  unfold get_last_finished at h
  rcases List.mem_map.mp h with ⟨r, hr, hconv⟩
  have hr2 := List.take_subset _ _ hr
  have hr3 := mem_sortByFinDesc.mp hr2
  exact ⟨r, List.mem_of_mem_filter hr3, List.of_mem_filter hr3, hconv.symm⟩

/-- Claim C10: the `force` flag round-trips through storage: it is
stored as integer 1/0 by `enqueue_job`, every read path (`get_queued`,
`get_running`, `get_last_finished`, `claim_next_job`) returns rows
through `_convert_row`, which turns the stored integer back into a
bool, so the returned `Job.force` equals the enqueued boolean. -/
theorem force_roundtrip :
    (∀ r, (convert_row r).force = decide (r.force ≠ 0)) ∧
    (∀ db e rf md b now, ∃ row : JobRow,
      (enqueue_job db e rf md b now).1.jobs = db.jobs ++ [row] ∧
      row.id = (enqueue_job db e rf md b now).2 ∧
      row.force = (if b then 1 else 0) ∧
      (convert_row row).force = b) ∧
    (∀ db limit j, j ∈ get_queued db limit →
      ∃ r ∈ db.jobs, r.status = "queued" ∧ j = convert_row r ∧
        (j.force = true ↔ r.force ≠ 0)) ∧
    (∀ db j, get_running db = some j →
      ∃ r ∈ db.jobs, r.status = "running" ∧ j = convert_row r ∧
        (j.force = true ↔ r.force ≠ 0)) ∧
    (∀ db n j, j ∈ get_last_finished db n →
      ∃ r ∈ db.jobs, isFinished r = true ∧ j = convert_row r ∧
        (j.force = true ↔ r.force ≠ 0)) ∧
    (∀ db now j, (claim_next_job db now).2 = some j →
      ∃ r ∈ db.jobs, j = convert_row r ∧ (j.force = true ↔ r.force ≠ 0)) ∧
    (∀ db e rf md b now limit j,
      (∀ r ∈ db.jobs, r.id < db.next_id) →
      j ∈ get_queued (enqueue_job db e rf md b now).1 limit →
      j.id = (enqueue_job db e rf md b now).2 →
      j.force = b) := by
  have hforce : ∀ (r : JobRow), (convert_row r).force = decide (r.force ≠ 0) :=
    fun r => rfl
  have hiff : ∀ (r : JobRow), ((convert_row r).force = true ↔ r.force ≠ 0) := by
    intro r
    rw [hforce]
    exact decide_eq_true_iff
  refine ⟨hforce, ?_, ?_, ?_, ?_, ?_, ?_⟩
  · intro db e rf md b now
    refine ⟨_, rfl, rfl, rfl, ?_⟩
    cases b <;> rfl
  · intro db limit j hj
    rcases mem_get_queued hj with ⟨r, hr, hst, hconv⟩
    exact ⟨r, hr, hst, hconv, hconv ▸ hiff r⟩
  · intro db j hj
    rcases mem_get_running hj with ⟨r, hr, hst, hconv⟩
    exact ⟨r, hr, hst, hconv, hconv ▸ hiff r⟩
  · intro db n j hj
    rcases mem_get_last_finished hj with ⟨r, hr, hst, hconv⟩
    exact ⟨r, hr, hst, hconv, hconv ▸ hiff r⟩
  · intro db now j hj
    cases hsel : selectMinQueued db.jobs with
    | none =>
      rw [claim_next_job_of_sel_none _ hsel] at hj
      cases hj
    | some m =>
      rw [claim_next_job_of_sel_some _ hsel] at hj
      have hjm : j = convert_row m := (Option.some_inj.mp hj).symm
      exact ⟨m, selectMinQueued_mem hsel, hjm, hjm ▸ hiff m⟩
  · intro db e rf md b now limit j hbound hj hid
    rcases mem_get_queued hj with ⟨r, hr, _, hconv⟩
    rcases List.mem_append.mp hr with h1 | h1
    · exfalso
      have hlt := hbound r h1
      have : j.id = r.id := by rw [hconv]; rfl
      rw [this] at hid
      rw [hid] at hlt
      exact Nat.lt_irrefl _ hlt
    · rcases List.mem_singleton.mp h1 with rfl
      rw [hconv]
      show decide ((if b then 1 else 0) ≠ 0) = b
      cases b <;> rfl

/-- The job returned by `get_queued` after enqueueing with
`force = true` into an empty store. -/
def jobX : Job :=
  { id := 1, exp_id := "x", root_folder := "r", mode := "m", force := true,
    status := "queued", created_at := 0, started_at := none,
    finished_at := none, log_path := none, error := none }

/-- Witness for C10: enqueueing with `force = true` into the empty
store and reading back through `get_queued` yields `force = true`. -/
theorem force_roundtrip_witness :
    jobX ∈ get_queued (enqueue_job initDB "x" "r" "m" true 0).1 10 ∧
    jobX.force = true := by
  refine ⟨by decide, ?_⟩
  exact force_roundtrip.2.2.2.2.2.2 initDB "x" "r" "m" true 0 10 jobX
    (by intro r hr; cases hr) (by decide) rfl

/-- Counterexample to C5: `tail_text` keeps no cross-call offset — after
the Worker appends "line1\n" and then "line2\n", the second read
returns "line1\nline2\n" (re-returning "line1\n" as its prefix), not
"line2\n". -/
theorem tail_text_rereads_counterexample :
    tail_text (some "line1\n".data) 80000 = "line1\n".data ∧
    tail_text (some ("line1\n" ++ "line2\n").data) 80000
      = ("line1\n" ++ "line2\n").data ∧
    ¬ tail_text (some ("line1\n" ++ "line2\n").data) 80000 = "line2\n".data ∧
    (∃ rest, tail_text (some ("line1\n" ++ "line2\n").data) 80000
      = "line1\n".data ++ rest) :=
  ⟨by decide, by decide, by decide, "line2\n".data, by decide⟩

/-- Amended C5: each `tail_text` call independently re-reads the last
`min (size, max_bytes)` bytes of the file (seeking to
`max (0, size - max_bytes)` from the start).  Growth between reads is
tolerated — for files within `max_bytes` the whole current content,
including any newly appended suffix, is returned — but previously
returned content is returned again (the dialog merely skips re-rendering
when the text is unchanged); a missing file reads as empty. -/
theorem tail_text_last_bytes :
    (∀ (d new : List Char) (max_bytes : Nat), (d ++ new).length ≤ max_bytes →
      tail_text (some (d ++ new)) max_bytes = d ++ new) ∧
    (∀ (d : List Char) (max_bytes : Nat),
      (tail_text (some d) max_bytes).length = min d.length max_bytes) ∧
    (∀ (d : List Char) (max_bytes : Nat), ∃ pre,
      d = pre ++ tail_text (some d) max_bytes) ∧
    (∀ max_bytes : Nat, tail_text none max_bytes = []) := by
  refine ⟨?_, ?_, ?_, fun _ => rfl⟩
  · intro d new max hle
    show List.drop ((d ++ new).length - max) (d ++ new) = d ++ new
    rw [Nat.sub_eq_zero_of_le hle]
    rfl
  · intro d max
    show (List.drop (d.length - max) d).length = _
    rw [List.length_drop]
    rcases Nat.le_total d.length max with h | h
    · rw [Nat.sub_eq_zero_of_le h, Nat.sub_zero, Nat.min_eq_left h]
    · rw [Nat.sub_sub_self h, Nat.min_eq_right h]
  · intro d max
    exact ⟨d.take (d.length - max), (List.take_append_drop _ d).symm⟩

/-- Witness for amended C5: both appended lines fit in the 80000-byte
window, so the second read returns the whole file. -/
theorem tail_text_last_bytes_witness :
    ("line1\n".data ++ "line2\n".data).length ≤ 80000 ∧
    tail_text (some ("line1\n".data ++ "line2\n".data)) 80000
      = "line1\n".data ++ "line2\n".data :=
  ⟨by decide,
   tail_text_last_bytes.1 "line1\n".data "line2\n".data 80000 (by decide)⟩

/-- Counterexample to C6: a transient store error raised by
`claim_next_job` is not treated like "no job available" — the worker
iteration ends as a crash (the exception propagates out of `main`, which
has no handler around the claim), not as a poll sleep. -/
theorem worker_claim_error_crash_counterexample :
    worker_iteration db3 (some .locked) none "logs" 0 0
      = (db3, .crashed .locked) ∧
    ¬ (worker_iteration db3 (some .locked) none "logs" 0 0).2
      = IterOutcome.slept :=
  ⟨rfl, by decide⟩

/-- Amended C6: the worker's loop body only guards the job body with
`try/except`; an exception from `claim_next_job` propagates and the
Worker process crashes, while a `None` claim (genuinely empty queue)
makes it sleep the poll interval and retry. -/
theorem worker_claim_error_propagates :
    (∀ db e bodyErr logsDir t1 t2,
      worker_iteration db (some e) bodyErr logsDir t1 t2
        = (db, .crashed e)) ∧
    (∀ db bodyErr logsDir t1 t2, (∀ r ∈ db.jobs, ¬ r.status = "queued") →
      worker_iteration db none bodyErr logsDir t1 t2 = (db, .slept)) := by
  constructor
  · intro db e be ld t1 t2
    rfl
  · intro db be ld t1 t2 hall
    have hc := claim_next_job_of_sel_none t1 (selectMinQueued_eq_none.mpr hall)
    cases be with
    | none =>
      rw [worker_iteration, hc]
    | some p =>
      obtain ⟨f, ty, ms⟩ := p
      rw [worker_iteration, hc]

/-- Witness for amended C6: on the empty store the worker sleeps; with
an injected store error it crashes. -/
theorem worker_claim_error_propagates_witness :
    worker_iteration initDB none none "logs" 0 0 = (initDB, .slept) ∧
    worker_iteration initDB (some .unreachable) none "logs" 0 0
      = (initDB, .crashed .unreachable) :=
  ⟨worker_claim_error_propagates.2 initDB none "logs" 0 0
     (by intro r hr; cases hr),
   worker_claim_error_propagates.1 initDB .unreachable none "logs" 0 0⟩

/-- Counterexample to C7: right after `claim_next_job` commits and
before the separate `set_log_path` transaction, `get_running` observes
a `'running'` job whose `log_path` is null. -/
theorem running_null_log_path_counterexample :
    (get_running (claim_next_job db3 10).1).map
        (fun j => (j.status, j.log_path))
      = some ("running", none) := by
  decide

/-- Amended C7: `log_path` is set by a separate unconditional update
immediately after the claim, so between the two transactions a running
row with null `log_path` is observable (the Monitor then falls back to
tailing the worker stdout log); once `set_log_path` has run — before
the job body — the claimed row is `'running'` with `log_path` set. -/
theorem log_path_set_after_claim :
    (∀ db now db1 j, claim_next_job db now = (db1, some j) →
      ∀ p, ∃ r, getRow (set_log_path db1 j.id p) j.id = some r ∧
        r.status = "running" ∧ r.started_at = some now ∧
        r.log_path = some p) ∧
    (∀ j ws, j.log_path = none → chooseLogPath (some j) ws = ws) ∧
    (∀ j ws p, j.log_path = some p → ¬ p = "" → chooseLogPath (some j) ws = p) ∧
    (∀ ws, chooseLogPath none ws = ws) := by
  refine ⟨?_, ?_, ?_, fun _ => rfl⟩
  · intro db now db1 j hclaim p
    cases hsel : selectMinQueued db.jobs with
    | none =>
      rw [claim_next_job_of_sel_none _ hsel] at hclaim
      injection hclaim with h1 h2
      cases h2
    | some m =>
      rw [claim_next_job_of_sel_some _ hsel] at hclaim
      injection hclaim with h1 h2
      have hj : convert_row m = j := Option.some_inj.mp h2
      have hjid : j.id = m.id := by
        rw [← hj]
        rfl
      have hex : ∃ r', db.jobs.find? (fun r => decide (r.id = m.id)) = some r' := by
        have hs : (db.jobs.find? (fun r => decide (r.id = m.id))).isSome := by
          rw [List.find?_isSome]
          exact ⟨m, selectMinQueued_mem hsel, by simp⟩
        exact Option.isSome_iff_exists.mp hs
      rcases hex with ⟨r', hr'⟩
      have hgr : getRow db1 m.id
          = some { r' with status := "running", started_at := some now } := by
        rw [← h1]
        show (updateWhere db.jobs m.id fun x =>
          { x with status := "running", started_at := some now }).find?
            (fun r => decide (r.id = m.id)) = _
        rw [find_id_updateWhere _ _ _ (by intro r; rfl), hr']
        rfl
      refine ⟨{ r' with status := "running", started_at := some now,
                        log_path := some p }, ?_, rfl, rfl, rfl⟩
      rw [hjid, getRow_set_log_path, hgr]
      rfl
  · intro j ws hnone
    simp [chooseLogPath, hnone]
  · intro j ws p hp hne
    simp [chooseLogPath, hp, hne]

/-- Witness for amended C7: after claiming job 1 from `db3` and setting
its log path, the running row carries that path; while the path was
still null, the Monitor fell back to the worker stdout log. -/
theorem log_path_set_after_claim_witness :
    chooseLogPath (some (convert_row rowA)) "worker_stdout.log"
      = "worker_stdout.log" ∧
    (∃ r, getRow (set_log_path (claim_next_job db3 10).1 1 "logs/job.log") 1
        = some r ∧ r.status = "running" ∧ r.started_at = some 10 ∧
        r.log_path = some "logs/job.log") := by
  constructor
  · exact log_path_set_after_claim.2.1 (convert_row rowA) "worker_stdout.log" rfl
  · exact log_path_set_after_claim.1 db3 10 (claim_next_job db3 10).1
      (convert_row rowA) rfl "logs/job.log"

end SpinesQueue
